import Mathlib

/-!
Verification of the MuSig2 binding layer (`src/musig.rs`) of this repository.

The elliptic-curve group of secp256k1 is cyclic of prime order `n`, generated
by the base point `G`.  Following the spec's treatment of curve arithmetic as
an opaque external primitive, points of the subgroup generated by `G` are
modelled by their discrete logarithms: a point `k • G` is represented by
`k : ZMod n`, the point at infinity by `0`, and the generator by `1`.
Point addition is addition in `ZMod n`, and adding `t·G` to a point is
adding `t`.

The Rust code under `src/` delegates the cryptographic core to the vendored
C library (`secp256k1-sys/depend/secp256k1/src/modules/musig`), which is part
of the repository but not present under `src/`.  Definitions for those parts
carry a doc comment starting with `Modelled from the spec:` and follow the
spec's description of the missing code; everything else is translated
directly from `src/musig.rs`.
-/

namespace Musig2

/-- The order of the secp256k1 group (a 256-bit prime), as in the upstream
library's constants. -/
def curveOrder : ℕ :=
  0xFFFFFFFFFFFFFFFFFFFFFFFFFFFFFFFEBAAEDCE6AF48A03BBFD25E8CD0364141

instance : NeZero curveOrder := ⟨by decide⟩

/-- Exponent model of the secp256k1 group: the point `k • G` is represented by
the scalar `k`.  `0` is the point at infinity. -/
abbrev Point := ZMod curveOrder

/-- The group generator `G` in the exponent model. -/
def generator : Point := 1

/-- Half of the group order, used to pick the canonical (even-`y`)
representative of a `{P, -P}` class in the exponent model. -/
def halfOrder : ℕ := (curveOrder - 1) / 2

/-- Modelled from the spec: the x-only form of a point identifies the class
`{P, -P}`; the even-`y` convention picks one canonical representative of the
class.  In the exponent model the canonical representative of `{k, -k}` is the
one whose value is at most `halfOrder`. -/
def xOnly (k : Point) : Point :=
  if k.val ≤ curveOrder - k.val then k else -k

/-! ## Byte and hex utilities

`from_hex` and the `{:02x}` byte formatting used by the `LowerHex`/`Display`
implementations live in the crate root, outside `src/`; they are modelled
from the spec's wire contract (§6): big-endian fixed-width byte strings,
lowercase hex of exactly twice the byte length. -/

/-- Big-endian bytes of `v`, `len` bytes wide (most significant first). -/
def beBytes : ℕ → ℕ → List ℕ
  | 0, _ => []
  | len + 1, v => beBytes len (v / 256) ++ [v % 256]

/-- Big-endian interpretation of a byte list. -/
def fromBytesBE (l : List ℕ) : ℕ :=
  l.foldl (fun a b => 256 * a + b) 0

/-- The lowercase hex character for a value below 16. -/
def hexChar (d : ℕ) : Char :=
  if d < 10 then Char.ofNat (48 + d) else Char.ofNat (87 + d)

/-- The two lowercase hex characters of one byte, as written by the
`LowerHex` implementations in `src/musig.rs` (`write!("{:02x}", b)`). -/
def byteToHex (b : ℕ) : List Char :=
  [hexChar (b / 16), hexChar (b % 16)]

/-- Hex rendering of a byte string, two lowercase characters per byte. -/
def toHexChars (bs : List ℕ) : List Char :=
  bs.foldr (fun b acc => byteToHex b ++ acc) []

/-- Modelled from the spec: the value of one hex character as accepted by the
crate's `from_hex` helper (digits and both letter cases). -/
def hexDigitVal (c : Char) : Option ℕ :=
  if '0' ≤ c ∧ c ≤ '9' then some (c.toNat - 48)
  else if 'a' ≤ c ∧ c ≤ 'f' then some (c.toNat - 87)
  else if 'A' ≤ c ∧ c ≤ 'F' then some (c.toNat - 55)
  else none

/-- Modelled from the spec: the crate's `from_hex` helper, decoding a hex
string into bytes; fails on odd length or any non-hex character. -/
def fromHexChars : List Char → Option (List ℕ)
  | [] => some []
  | [_] => none
  | a :: b :: rest =>
    match hexDigitVal a, hexDigitVal b, fromHexChars rest with
    | some hi, some lo, some tail => some ((16 * hi + lo) :: tail)
    | _, _, _ => none

/-- Musig parsing errors, from `src/musig.rs`. -/
inductive ParseError where
  | MalformedArg
deriving DecidableEq

/-- Musig tweaking related error, from `src/musig.rs` (a unit struct). -/
structure InvalidTweakErr where
deriving DecidableEq

instance {ε α : Type} [DecidableEq ε] [DecidableEq α] : DecidableEq (Except ε α) :=
  fun x y =>
    match x, y with
    | .ok a, .ok b =>
      if h : a = b then isTrue (by rw [h])
      else isFalse (by intro hc; injection hc; contradiction)
    | .error a, .error b =>
      if h : a = b then isTrue (by rw [h])
      else isFalse (by intro hc; injection hc; contradiction)
    | .ok _, .error _ => isFalse (by intro hc; injection hc)
    | .error _, .ok _ => isFalse (by intro hc; injection hc)

/-! ## Compressed point codec

The 33-byte compressed point codec is implemented by the C library.
Modelled from the spec: a compressed point is one parity byte followed by the
32 big-endian bytes of the x-coordinate, and parsing validates curve
membership.  In the exponent model the x-coordinate of the class `{k, -k}` is
its canonical representative `(xOnly k).val ∈ [1, halfOrder]`, the parity
byte is `0x02` for the even-`y` element of the class and `0x03` for the
other, and a byte string is a valid point encoding exactly when its parity
byte is `0x02` or `0x03` and its x-part denotes a canonical representative. -/

/-- Modelled from the spec: compressed encoding of a non-infinity point. -/
def encodePoint (k : Point) : List ℕ :=
  (if xOnly k = k then 2 else 3) :: beBytes 32 (xOnly k).val

/-- Modelled from the spec: parsing of a 33-byte compressed point; rejects
byte strings that do not decode to a valid (non-infinity) curve point. -/
def decodePoint (b : List ℕ) : Option Point :=
  match b with
  | p :: rest =>
    if rest.length = 32 then
      let x := fromBytesBE rest
      if 1 ≤ x ∧ x ≤ halfOrder then
        if p = 2 then some (x : Point)
        else if p = 3 then some (-(x : Point))
        else none
      else none
    else none
  | [] => none

/-- Modelled from the spec: the extended point codec used for aggregated
nonces, where the point at infinity is encoded as 33 zero bytes. -/
def encodePointExt (k : Point) : List ℕ :=
  if k = 0 then List.replicate 33 0 else encodePoint k

/-- Modelled from the spec: extended point parsing accepting the 33-zero-byte
encoding of the point at infinity. -/
def decodePointExt (b : List ℕ) : Option Point :=
  if b = List.replicate 33 0 then some 0 else decodePoint b

/-! ## Wire types: `PublicNonce`, `AggregatedNonce`, `PartialSignature` -/

/-- An individual MuSig public nonce: a pair of group elements
(`src/musig.rs`, `PublicNonce`). -/
structure PublicNonce where
  r1 : Point
  r2 : Point
deriving DecidableEq

/-- Musig aggregated nonce: same shape as `PublicNonce`
(`src/musig.rs`, `AggregatedNonce`). -/
structure AggregatedNonce where
  r1 : Point
  r2 : Point
deriving DecidableEq

/-- A Musig partial signature is a scalar (`src/musig.rs`,
`PartialSignature`). -/
abbrev PartialSignature := ZMod curveOrder

/-- `PublicNonce::serialize`: 66 bytes, two concatenated compressed points.
The byte layout is produced by the C library; modelled from the spec. -/
def PublicNonce.serialize (x : PublicNonce) : List ℕ :=
  encodePoint x.r1 ++ encodePoint x.r2

/-- `PublicNonce::from_byte_array`: rejects byte strings that do not decode
to valid curve points, with `ParseError::MalformedArg`. -/
def PublicNonce.from_byte_array (b : List ℕ) : Except ParseError PublicNonce :=
  if b.length = 66 then
    match decodePoint (b.take 33), decodePoint (b.drop 33) with
    | some p1, some p2 => .ok ⟨p1, p2⟩
    | _, _ => .error .MalformedArg
  else .error .MalformedArg

/-- The `Display`/`LowerHex` rendering of a `PublicNonce` from
`src/musig.rs`: each serialized byte written as two lowercase hex digits. -/
def PublicNonce.displayHex (x : PublicNonce) : String :=
  ⟨toHexChars (PublicNonce.serialize x)⟩

/-- `PublicNonce::from_str` from `src/musig.rs`: hex-decode into a 66-byte
buffer; any outcome other than exactly 66 decoded bytes is
`ParseError::MalformedArg`. -/
def PublicNonce.from_str (s : String) : Except ParseError PublicNonce :=
  match fromHexChars s.data with
  | some bytes =>
    if bytes.length = 66 then PublicNonce.from_byte_array bytes
    else .error .MalformedArg
  | none => .error .MalformedArg

/-- `AggregatedNonce::serialize`: 66 bytes; the C layer encodes an infinity
component as 33 zero bytes (extended codec). -/
def AggregatedNonce.serialize (x : AggregatedNonce) : List ℕ :=
  encodePointExt x.r1 ++ encodePointExt x.r2

/-- `AggregatedNonce::from_byte_array`: rejects byte strings that do not
decode to valid curve points (the infinity encoding being accepted), with
`ParseError::MalformedArg`. -/
def AggregatedNonce.from_byte_array (b : List ℕ) : Except ParseError AggregatedNonce :=
  if b.length = 66 then
    match decodePointExt (b.take 33), decodePointExt (b.drop 33) with
    | some p1, some p2 => .ok ⟨p1, p2⟩
    | _, _ => .error .MalformedArg
  else .error .MalformedArg

/-- The `Display`/`LowerHex` rendering of an `AggregatedNonce`. -/
def AggregatedNonce.displayHex (x : AggregatedNonce) : String :=
  ⟨toHexChars (AggregatedNonce.serialize x)⟩

/-- `AggregatedNonce::from_str` from `src/musig.rs`. -/
def AggregatedNonce.from_str (s : String) : Except ParseError AggregatedNonce :=
  match fromHexChars s.data with
  | some bytes =>
    if bytes.length = 66 then AggregatedNonce.from_byte_array bytes
    else .error .MalformedArg
  | none => .error .MalformedArg

/-- `PartialSignature::serialize`: the 32 big-endian bytes of the scalar. -/
def partialSignatureSerialize (x : PartialSignature) : List ℕ :=
  beBytes 32 x.val

/-- `PartialSignature::from_byte_array`: rejects values at or beyond the
group order with `ParseError::MalformedArg`. -/
def partialSignatureFromByteArray (b : List ℕ) : Except ParseError PartialSignature :=
  if b.length = 32 ∧ fromBytesBE b < curveOrder then
    .ok ((fromBytesBE b : ℕ) : PartialSignature)
  else .error .MalformedArg

/-- The `Display`/`LowerHex` rendering of a `PartialSignature`. -/
def partialSignatureDisplayHex (x : PartialSignature) : String :=
  ⟨toHexChars (partialSignatureSerialize x)⟩

/-- `PartialSignature::from_str` from `src/musig.rs`: hex-decode into a
32-byte buffer; any outcome other than exactly 32 decoded bytes is
`ParseError::MalformedArg`. -/
def partialSignatureFromStr (s : String) : Except ParseError PartialSignature :=
  match fromHexChars s.data with
  | some bytes =>
    if bytes.length = 32 then partialSignatureFromByteArray bytes
    else .error .MalformedArg
  | none => .error .MalformedArg

/-! ## Key aggregation -/

/-- Modelled from the spec: the tagged hash of the full key list used to
derive per-key aggregation coefficients.  The hash itself is an opaque
external primitive; it is modelled as an explicit deterministic mixing of the
ordered key list and the key. -/
def coeffHash (l : List Point) (p : Point) : Point :=
  (((l.foldl (fun a k => a * 65537 + k.val + 1) 3) * 65537 + p.val + 1 : ℕ) : Point)

/-- Modelled from the spec: the second-occurring key of the list (the first
key that differs from the first key), which receives the special-cased
aggregation coefficient that prevents the rogue-key attack. -/
def secondKey (l : List Point) : Option Point :=
  match l with
  | [] => none
  | h :: t => t.find? (fun k => k != h)

/-- Modelled from the spec: the aggregation coefficient of key `p` within the
ordered list `l`; the second-occurring key gets coefficient `1`. -/
def keyAggCoeff (l : List Point) (p : Point) : Point :=
  if secondKey l = some p then 1 else coeffHash l p

/-- Modelled from the spec: the aggregate public key of an ordered key list,
the coefficient-weighted sum of the keys. -/
def keyAggPoint (l : List Point) : Point :=
  (l.map (fun p => keyAggCoeff l p * p)).sum

/-- Cached data related to a key aggregation (`src/musig.rs`,
`KeyAggCache`): the opaque aggregation state (modelled as the current full
aggregate point) together with the cached aggregate x-only public key. -/
structure KeyAggCache where
  q : Point
  aggregated_xonly_public_key : Point
deriving DecidableEq

/-- `KeyAggCache::new` from `src/musig.rs`: panics (modelled as `none`) on an
empty key list, otherwise aggregates; the aggregation itself is performed by
the C library (modelled from the spec via `keyAggPoint`). -/
def KeyAggCache.new (pubkeys : List Point) : Option KeyAggCache :=
  if pubkeys.isEmpty then none
  else some ⟨keyAggPoint pubkeys, xOnly (keyAggPoint pubkeys)⟩

/-- `KeyAggCache::agg_pk` from `src/musig.rs`: returns the cached aggregate
x-only public key field. -/
def KeyAggCache.agg_pk (c : KeyAggCache) : Point :=
  c.aggregated_xonly_public_key

/-- `KeyAggCache::agg_pk_full` from `src/musig.rs`: the full (non-x-only)
aggregate public key, read from the opaque state. -/
def KeyAggCache.agg_pk_full (c : KeyAggCache) : Point :=
  c.q

/-- `KeyAggCache::pubkey_ec_tweak_add` from `src/musig.rs`: adds `t·G` to
the aggregate (the addition is performed by the C library, which fails
exactly when the result would be the point at infinity and leaves the cache
unchanged in that case; modelled from the spec).  On success the wrapper
stores the x-only form of the returned key into the cached aggregate key. -/
def KeyAggCache.pubkey_ec_tweak_add (c : KeyAggCache) (tweak : Point) :
    Except InvalidTweakErr Point × KeyAggCache :=
  if c.q + tweak = 0 then (.error ⟨⟩, c)
  else (.ok (c.q + tweak), ⟨c.q + tweak, xOnly (c.q + tweak)⟩)

/-- `KeyAggCache::pubkey_xonly_tweak_add` from `src/musig.rs`: first
normalizes the aggregate to its even-`y` representative, then adds `t·G`
(performed by the C library; modelled from the spec).  Same failure
condition and the same wrapper update of the cached aggregate key. -/
def KeyAggCache.pubkey_xonly_tweak_add (c : KeyAggCache) (tweak : Point) :
    Except InvalidTweakErr Point × KeyAggCache :=
  if xOnly c.q + tweak = 0 then (.error ⟨⟩, c)
  else (.ok (xOnly c.q + tweak), ⟨xOnly c.q + tweak, xOnly (xOnly c.q + tweak)⟩)

/-! ## Nonce generation -/

/-- The in-place XOR loop of `new_nonce_pair` in `src/musig.rs`:
`for (this, that) in seed.iter_mut().zip(other.iter()) { *this ^= *that }`.
Positions beyond the shorter list are left unchanged. -/
def xorAssign (seed other : List ℕ) : List ℕ :=
  List.zipWith (fun a b => a ^^^ b) seed other ++ seed.drop other.length

/-- The seed value computed by `new_nonce_pair` in `src/musig.rs` and handed
to the nonce-generation context: the session randomness, XORed in place with
the secret-key bytes when present, then with the extra entropy when
present. -/
def effectiveSeed (secrand : List ℕ) (sec_key extra_rand : Option (List ℕ)) : List ℕ :=
  let s1 :=
    match sec_key with
    | none => secrand
    | some b => xorAssign secrand b
  match extra_rand with
  | none => s1
  | some b => xorAssign s1 b

/-- The seed combination as worded by the spec, the refinement target for the
claim about misuse resistance: byte-wise `seed XOR secret_key XOR
extra_entropy`, zero-extended over the absent components. -/
def specEffectiveSeed (secrand : List ℕ) (sec_key extra_rand : Option (List ℕ)) : List ℕ :=
  List.zipWith (fun a b => a ^^^ b)
    (List.zipWith (fun a b => a ^^^ b) secrand (sec_key.getD (List.replicate 32 0)))
    (extra_rand.getD (List.replicate 32 0))

/-- `SessionSecretRand::assume_unique_per_nonce_gen` from `src/musig.rs`:
folds the bytes with bitwise OR and panics (modelled as `none`) when the
fold is zero, i.e. on the all-zero string. -/
def assume_unique_per_nonce_gen (inner : List ℕ) : Option (List ℕ) :=
  if inner.foldl (fun accum x => accum ||| x) 0 = 0 then none else some inner

/-- Musig secret nonce (`src/musig.rs`, `SecretNonce`): the pair of secret
scalars behind the public nonce pair. -/
structure SecretNonce where
  k1 : Point
  k2 : Point
deriving DecidableEq

/-- Modelled from the spec: the nonce derivation performed by
`secp256k1_musig_nonce_gen` (an opaque tagged-hash-based derivation), as a
deterministic function of the effective seed and the binding inputs (public
key and, when available, message and key-aggregation cache). -/
def nonceDerive (seed : List ℕ) (pk : Point) (msg : Option (List ℕ))
    (cacheq : Option Point) (j : ℕ) : Point :=
  (((seed.foldl (fun a b => a * 256 + b) 1)
    + pk.val * 3
    + ((msg.getD []).foldl (fun a b => a * 256 + b) 0) * 5
    + ((cacheq.map ZMod.val).getD 0) * 7
    + j : ℕ) : Point)

/-- `new_nonce_pair` from `src/musig.rs`: computes the effective seed,
invokes the C nonce generation (which, per its documented contract, fails
exactly when the session randomness is the all-zero string, upon which the
wrapper panics — modelled as `none`), and returns the secret/public nonce
pair. -/
def new_nonce_pair (session_secrand : List ℕ) (key_agg_cache : Option KeyAggCache)
    (sec_key : Option (List ℕ)) (pub_key : Point) (msg : Option (List ℕ))
    (extra_rand : Option (List ℕ)) : Option (SecretNonce × PublicNonce) :=
  if session_secrand.all (fun b => b = 0) then none
  else
    let seed := effectiveSeed session_secrand sec_key extra_rand
    let k1 := nonceDerive seed pub_key msg (key_agg_cache.map KeyAggCache.q) 1
    let k2 := nonceDerive seed pub_key msg (key_agg_cache.map KeyAggCache.q) 2
    some (⟨k1, k2⟩, ⟨k1, k2⟩)

/-! ## Nonce aggregation -/

/-- `AggregatedNonce::new` from `src/musig.rs`: panics (modelled as `none`)
on an empty nonce list; otherwise sums the nonces component-wise (performed
by the C library; modelled from the spec), substituting the group generator
for a component whose sum is the point at infinity. -/
def AggregatedNonce.new (nonces : List PublicNonce) : Option AggregatedNonce :=
  if nonces.isEmpty then none
  else
    let s1 := (nonces.map PublicNonce.r1).sum
    let s2 := (nonces.map PublicNonce.r2).sum
    some ⟨if s1 = 0 then generator else s1, if s2 = 0 then generator else s2⟩

/-! ## Session and signature aggregation -/

/-- A musig signing session (`src/musig.rs`, `Session`): immutable state
derived at construction; for signature aggregation only the final nonce
matters (modelled from the spec). -/
structure Session where
  fin_nonce : Point
deriving DecidableEq

/-- The final aggregate signature is a 64-byte string: nonce x-coordinate
followed by the scalar (`src/musig.rs`, `AggregatedSignature`). -/
abbrev AggregatedSignature := List ℕ

/-- `Session::partial_sig_agg` from `src/musig.rs`: panics (modelled as
`none`) on an empty list of partial signatures; otherwise sums the scalar
parts (performed by the C library; modelled from the spec) and combines the
sum with the session's nonce x-coordinate into the 64-byte signature. -/
def Session.partial_sig_agg (s : Session) (partial_sigs : List PartialSignature) :
    Option AggregatedSignature :=
  if partial_sigs.isEmpty then none
  else some (beBytes 32 (xOnly s.fin_nonce).val ++ beBytes 32 (partial_sigs.sum).val)

end Musig2

/-! ## Supporting lemmas -/

namespace Musig2

theorem nat_xor_eq_left {x y : ℕ} : x ^^^ y = x ↔ y = 0 := by
  constructor
  · intro h
    have h2 : x ^^^ (x ^^^ y) = x ^^^ x := by rw [h]
    rwa [← Nat.xor_assoc, Nat.xor_self, Nat.zero_xor] at h2
  · rintro rfl
    exact Nat.xor_zero x

theorem nat_xor_right_cancel {x y z : ℕ} (h : x ^^^ z = y ^^^ z) : x = y := by
  have h2 : (x ^^^ z) ^^^ z = (y ^^^ z) ^^^ z := by rw [h]
  rwa [Nat.xor_assoc, Nat.xor_self, Nat.xor_zero, Nat.xor_assoc, Nat.xor_self,
    Nat.xor_zero] at h2

theorem nat_or_eq_zero {x y : ℕ} : x ||| y = 0 ↔ x = 0 ∧ y = 0 := by
  constructor
  · intro h
    constructor
    · apply Nat.eq_of_testBit_eq
      intro i
      have hbit := congrArg (fun v => Nat.testBit v i) h
      simp only [Nat.testBit_or, Nat.zero_testBit, Bool.or_eq_false_iff] at hbit
      simp [hbit.1]
    · apply Nat.eq_of_testBit_eq
      intro i
      have hbit := congrArg (fun v => Nat.testBit v i) h
      simp only [Nat.testBit_or, Nat.zero_testBit, Bool.or_eq_false_iff] at hbit
      simp [hbit.2]
  · rintro ⟨rfl, rfl⟩
    simp

theorem foldl_or_eq_zero (l : List ℕ) :
    ∀ acc, (l.foldl (fun a x => a ||| x) acc = 0 ↔ acc = 0 ∧ ∀ x ∈ l, x = 0) := by
  induction l with
  | nil => intro acc; simp
  | cons b t ih =>
    intro acc
    simp only [List.foldl_cons, ih, nat_or_eq_zero, List.mem_cons]
    constructor
    · rintro ⟨⟨h1, h2⟩, h3⟩
      exact ⟨h1, fun x hx => hx.elim (fun hh => hh ▸ h2) (h3 x)⟩
    · rintro ⟨h1, h2⟩
      exact ⟨⟨h1, h2 b (Or.inl rfl)⟩, fun x hx => h2 x (Or.inr hx)⟩

theorem zipWith_xor_replicate_zero (s : List ℕ) (n : ℕ) (h : s.length = n) :
    List.zipWith (fun a b => a ^^^ b) s (List.replicate n 0) = s := by
  induction s generalizing n with
  | nil => simp
  | cons a t ih =>
    cases n with
    | zero => simp at h
    | succ m =>
      simp only [List.replicate_succ, List.zipWith_cons_cons, Nat.xor_zero]
      rw [ih m (by simpa using h)]

theorem zipWith_xor_eq_left (a : List ℕ) :
    ∀ b : List ℕ, a.length = b.length →
      (List.zipWith (fun x y => x ^^^ y) a b = a ↔ ∀ x ∈ b, x = 0) := by
  induction a with
  | nil =>
    intro b hb
    cases b with
    | nil => simp
    | cons y ys => simp at hb
  | cons x xs ih =>
    intro b hb
    cases b with
    | nil => simp at hb
    | cons y ys =>
      simp only [List.zipWith_cons_cons, List.cons.injEq, List.mem_cons]
      rw [ih ys (by simpa using hb)]
      constructor
      · rintro ⟨h1, h2⟩
        exact fun z hz => hz.elim (fun hh => hh ▸ nat_xor_eq_left.mp h1) (h2 z)
      · intro h2
        exact ⟨nat_xor_eq_left.mpr (h2 y (Or.inl rfl)),
          fun z hz => h2 z (Or.inr hz)⟩

theorem zipWith_xor_right_cancel (a : List ℕ) :
    ∀ b e : List ℕ, a.length = e.length → b.length = e.length →
      List.zipWith (fun x y => x ^^^ y) a e = List.zipWith (fun x y => x ^^^ y) b e →
      a = b := by
  induction a with
  | nil =>
    intro b e ha hb _
    cases e with
    | nil => cases b with
      | nil => rfl
      | cons y ys => simp at hb
    | cons z zs => simp at ha
  | cons x xs ih =>
    intro b e ha hb hzip
    cases e with
    | nil => simp at ha
    | cons z zs =>
      cases b with
      | nil => simp at hb
      | cons y ys =>
        simp only [List.zipWith_cons_cons, List.cons.injEq] at hzip
        rw [nat_xor_right_cancel hzip.1,
          ih ys zs (by simpa using ha) (by simpa using hb) hzip.2]

end Musig2

namespace Musig2

theorem beBytes_length (len : ℕ) : ∀ v, (beBytes len v).length = len := by
  induction len with
  | zero => intro v; rfl
  | succ m ih => intro v; simp [beBytes, ih]

theorem beBytes_lt (len : ℕ) : ∀ v, ∀ b ∈ beBytes len v, b < 256 := by
  induction len with
  | zero => intro v b hb; simp [beBytes] at hb
  | succ m ih =>
    intro v b hb
    simp only [beBytes, List.mem_append, List.mem_singleton] at hb
    rcases hb with hb | hb
    · exact ih (v / 256) b hb
    · exact hb ▸ Nat.mod_lt v (by norm_num)

theorem fromBytesBE_append_singleton (l : List ℕ) (b : ℕ) :
    fromBytesBE (l ++ [b]) = 256 * fromBytesBE l + b := by
  simp [fromBytesBE, List.foldl_append]

theorem fromBytesBE_beBytes (len : ℕ) :
    ∀ v, v < 256 ^ len → fromBytesBE (beBytes len v) = v := by
  induction len with
  | zero =>
    intro v hv
    interval_cases v
    rfl
  | succ m ih =>
    intro v hv
    have hdiv : v / 256 < 256 ^ m := by
      rw [Nat.div_lt_iff_lt_mul (by norm_num)]
      calc v < 256 ^ (m + 1) := hv
        _ = 256 ^ m * 256 := by rw [pow_succ]
    rw [beBytes, fromBytesBE_append_singleton, ih (v / 256) hdiv]
    exact Nat.div_add_mod v 256

theorem toHexChars_nil : toHexChars [] = [] := rfl

theorem toHexChars_cons (b : ℕ) (bs : List ℕ) :
    toHexChars (b :: bs) = byteToHex b ++ toHexChars bs := rfl

theorem toHexChars_length (bs : List ℕ) : (toHexChars bs).length = 2 * bs.length := by
  induction bs with
  | nil => rfl
  | cons b t ih =>
    simp only [toHexChars_cons, List.length_append, List.length_cons, ih, byteToHex]
    simp
    omega

theorem hexDigitVal_hexChar : ∀ d < 16, hexDigitVal (hexChar d) = some d := by decide

theorem isLowerHexChar_hexChar : ∀ d < 16,
    ('0' ≤ hexChar d ∧ hexChar d ≤ '9') ∨ ('a' ≤ hexChar d ∧ hexChar d ≤ 'f') := by
  decide

theorem fromHexChars_toHexChars (bs : List ℕ) (h : ∀ b ∈ bs, b < 256) :
    fromHexChars (toHexChars bs) = some bs := by
  induction bs with
  | nil => rfl
  | cons b t ih =>
    have hb : b < 256 := h b (List.mem_cons_self b t)
    have hhi : b / 16 < 16 := by omega
    have hlo : b % 16 < 16 := Nat.mod_lt b (by norm_num)
    rw [toHexChars_cons]
    show fromHexChars (hexChar (b / 16) :: hexChar (b % 16) :: toHexChars t) = _
    rw [fromHexChars, hexDigitVal_hexChar _ hhi, hexDigitVal_hexChar _ hlo,
      ih (fun x hx => h x (List.mem_cons_of_mem b hx))]
    show some ((16 * (b / 16) + b % 16) :: t) = some (b :: t)
    rw [Nat.div_add_mod]

end Musig2

namespace Musig2

theorem fromHexChars_length_aux (n : ℕ) :
    ∀ (l : List Char) (bs : List ℕ), l.length ≤ n → fromHexChars l = some bs →
      l.length = 2 * bs.length := by
  induction n with
  | zero =>
    intro l bs hl h
    match l with
    | [] =>
      simp only [fromHexChars, Option.some.injEq] at h
      subst h
      rfl
    | c :: t => simp at hl
  | succ m ih =>
    intro l bs hl h
    match l with
    | [] =>
      simp only [fromHexChars, Option.some.injEq] at h
      subst h
      rfl
    | [c] => simp [fromHexChars] at h
    | a :: b :: rest =>
      rw [fromHexChars] at h
      rcases ha : hexDigitVal a with _ | hi <;> rw [ha] at h
      · simp at h
      rcases hb : hexDigitVal b with _ | lo <;> rw [hb] at h
      · simp at h
      rcases hr : fromHexChars rest with _ | tail <;> rw [hr] at h
      · simp at h
      simp only [Option.some.injEq] at h
      subst h
      have hrec := ih rest tail (by simp at hl; omega) hr
      simp only [List.length_cons]
      omega

theorem fromHexChars_length (l : List Char) (bs : List ℕ)
    (h : fromHexChars l = some bs) : l.length = 2 * bs.length :=
  fromHexChars_length_aux l.length l bs le_rfl h

theorem fromHexChars_none_of_bad_aux (n : ℕ) :
    ∀ (l : List Char) (c : Char), l.length ≤ n → c ∈ l → hexDigitVal c = none →
      fromHexChars l = none := by
  induction n with
  | zero =>
    intro l c hl hc _
    match l with
    | [] => simp at hc
    | d :: t => simp at hl
  | succ m ih =>
    intro l c hl hc hbad
    match l with
    | [] => simp at hc
    | [d] => rfl
    | a :: b :: rest =>
      rw [fromHexChars]
      rcases List.mem_cons.mp hc with rfl | hc2
      · rw [hbad]
      rcases List.mem_cons.mp hc2 with rfl | hc3
      · rw [hbad]
        rcases hexDigitVal a with _ | hi <;> rfl
      · have hrec := ih rest c (by simp at hl; omega) hc3 hbad
        rw [hrec]
        rcases hexDigitVal a with _ | hi <;> rcases hexDigitVal b with _ | lo <;> rfl

theorem fromHexChars_none_of_bad (l : List Char) (c : Char) (hc : c ∈ l)
    (hbad : hexDigitVal c = none) : fromHexChars l = none :=
  fromHexChars_none_of_bad_aux l.length l c le_rfl hc hbad

theorem toHexChars_mem_lower (bs : List ℕ) (h : ∀ b ∈ bs, b < 256) :
    ∀ c ∈ toHexChars bs, ('0' ≤ c ∧ c ≤ '9') ∨ ('a' ≤ c ∧ c ≤ 'f') := by
  induction bs with
  | nil => intro c hc; simp [toHexChars_nil] at hc
  | cons b t ih =>
    intro c hc
    have hb : b < 256 := h b (List.mem_cons_self b t)
    rw [toHexChars_cons] at hc
    rcases List.mem_append.mp hc with hc1 | hc2
    · simp only [byteToHex, List.mem_cons, List.not_mem_nil, or_false] at hc1
      rcases hc1 with rfl | rfl
      · exact isLowerHexChar_hexChar (b / 16) (by omega)
      · exact isLowerHexChar_hexChar (b % 16) (Nat.mod_lt b (by norm_num))
    · exact ih (fun x hx => h x (List.mem_cons_of_mem b hx)) c hc2

end Musig2

namespace Musig2

theorem two_mul_halfOrder_add_one : 2 * halfOrder + 1 = curveOrder := by decide

theorem curveOrder_lt_pow32 : curveOrder < 256 ^ 32 := by decide

theorem xOnly_val_le (k : Point) : (xOnly k).val ≤ halfOrder := by
  have hlt : k.val < curveOrder := ZMod.val_lt k
  have hhalf := two_mul_halfOrder_add_one
  rw [xOnly]
  split
  · omega
  · rename_i hgt
    have hk : k ≠ 0 := by
      intro h0
      rw [h0, ZMod.val_zero] at hgt
      omega
    rw [ZMod.neg_val, if_neg hk]
    omega

theorem xOnly_ne_zero {k : Point} (h : k ≠ 0) : xOnly k ≠ 0 := by
  rw [xOnly]
  split
  · exact h
  · simpa using h

theorem xOnly_val_pos {k : Point} (h : k ≠ 0) : 1 ≤ (xOnly k).val := by
  have h1 : (xOnly k).val ≠ 0 := by
    rw [Ne, ZMod.val_eq_zero]
    exact xOnly_ne_zero h
  omega

theorem xOnly_eq_neg {k : Point} (h : xOnly k ≠ k) : xOnly k = -k := by
  rw [xOnly] at h ⊢
  split
  · rename_i hc
    exact absurd (if_pos hc) h
  · rfl

theorem natCast_xOnly_val (k : Point) : (((xOnly k).val : ℕ) : Point) = xOnly k :=
  ZMod.natCast_rightInverse (xOnly k)

theorem decodePoint_encodePoint {k : Point} (h : k ≠ 0) :
    decodePoint (encodePoint k) = some k := by
  have hx : fromBytesBE (beBytes 32 (xOnly k).val) = (xOnly k).val :=
    fromBytesBE_beBytes 32 _ (lt_trans (ZMod.val_lt _) curveOrder_lt_pow32)
  have hlen : (beBytes 32 (xOnly k).val).length = 32 := beBytes_length 32 _
  have hpos := xOnly_val_pos h
  have hle := xOnly_val_le k
  rw [encodePoint]
  by_cases hfix : xOnly k = k
  · rw [if_pos hfix, decodePoint, if_pos hlen]
    simp only [hx]
    rw [if_pos ⟨hpos, hle⟩, if_pos trivial, natCast_xOnly_val, hfix]
  · rw [if_neg hfix, decodePoint, if_pos hlen]
    simp only [hx]
    rw [if_pos ⟨hpos, hle⟩, if_pos trivial]
    rw [natCast_xOnly_val, xOnly_eq_neg hfix, neg_neg]
    norm_num

theorem encodePoint_length (k : Point) : (encodePoint k).length = 33 := by
  rw [encodePoint]
  simp [beBytes_length]

theorem encodePoint_bytes_lt (k : Point) : ∀ b ∈ encodePoint k, b < 256 := by
  intro b hb
  rw [encodePoint] at hb
  rcases List.mem_cons.mp hb with rfl | hb2
  · split <;> norm_num
  · exact beBytes_lt 32 _ b hb2

theorem encodePoint_ne_replicate (k : Point) : encodePoint k ≠ List.replicate 33 0 := by
  intro hcontra
  have hhead := congrArg (fun l => l.headI) hcontra
  simp only [encodePoint, List.headI, List.replicate] at hhead
  split at hhead <;> simp at hhead

theorem decodePointExt_encodePointExt (k : Point) :
    decodePointExt (encodePointExt k) = some k := by
  by_cases h0 : k = 0
  · subst h0
    rw [encodePointExt, if_pos rfl, decodePointExt, if_pos rfl]
  · rw [encodePointExt, if_neg h0, decodePointExt,
      if_neg (encodePoint_ne_replicate k)]
    exact decodePoint_encodePoint h0

theorem encodePointExt_length (k : Point) : (encodePointExt k).length = 33 := by
  rw [encodePointExt]
  split
  · simp
  · exact encodePoint_length k

theorem encodePointExt_bytes_lt (k : Point) : ∀ b ∈ encodePointExt k, b < 256 := by
  intro b hb
  rw [encodePointExt] at hb
  split at hb
  · rw [List.eq_of_mem_replicate hb]
    norm_num
  · exact encodePoint_bytes_lt k b hb

end Musig2

namespace Musig2

theorem xorAssign_eq (a b : List ℕ) (h : a.length = b.length) :
    xorAssign a b = List.zipWith (fun x y => x ^^^ y) a b := by
  rw [xorAssign, ← h, List.drop_length, List.append_nil]

theorem zipWith_xor_length_32 (a b : List ℕ) (ha : a.length = 32) (hb : b.length = 32) :
    (List.zipWith (fun x y => x ^^^ y) a b).length = 32 := by
  rw [List.length_zipWith, ha, hb]
  omega

/-- C1: in `new_nonce_pair`, the effective seed fed to nonce derivation is the
byte-wise XOR of the session seed with the optional secret-key bytes and the
optional extra entropy, zero-extended over the absent components; hence
supplying a secret key or extra entropy that is not all-zero changes the seed
material used by the derivation. -/
theorem claim_C1_nonce_seed_xor (s : List ℕ) (sk e : Option (List ℕ))
    (hs : s.length = 32) (hsk : ∀ b ∈ sk, b.length = 32) (he : ∀ b ∈ e, b.length = 32) :
    effectiveSeed s sk e = specEffectiveSeed s sk e
    ∧ (∀ sk', sk = some sk' → (¬ ∀ x ∈ sk', x = 0) →
        effectiveSeed s sk e ≠ effectiveSeed s none e)
    ∧ (∀ e', e = some e' → (¬ ∀ x ∈ e', x = 0) →
        effectiveSeed s sk e ≠ effectiveSeed s sk none) := by
  refine ⟨?_, ?_, ?_⟩
  · rcases sk with _ | skv <;> rcases e with _ | ev
    · show s = specEffectiveSeed s none none
      rw [specEffectiveSeed]
      simp only [Option.getD_none]
      rw [zipWith_xor_replicate_zero s 32 hs,
        zipWith_xor_replicate_zero s 32 hs]
    · have hev : ev.length = 32 := he ev rfl
      show xorAssign s ev = specEffectiveSeed s none (some ev)
      rw [specEffectiveSeed]
      simp only [Option.getD_none, Option.getD_some]
      rw [zipWith_xor_replicate_zero s 32 hs, xorAssign_eq s ev (by omega)]
    · have hskv : skv.length = 32 := hsk skv rfl
      show xorAssign s skv = specEffectiveSeed s (some skv) none
      rw [specEffectiveSeed]
      simp only [Option.getD_none, Option.getD_some]
      rw [zipWith_xor_replicate_zero _ 32
          (zipWith_xor_length_32 s skv hs hskv),
        xorAssign_eq s skv (by omega)]
    · have hskv : skv.length = 32 := hsk skv rfl
      have hev : ev.length = 32 := he ev rfl
      show xorAssign (xorAssign s skv) ev = specEffectiveSeed s (some skv) (some ev)
      rw [specEffectiveSeed]
      simp only [Option.getD_some]
      rw [xorAssign_eq s skv (by omega),
        xorAssign_eq _ ev (by rw [zipWith_xor_length_32 s skv hs hskv, hev])]
  · intro sk' hsk' hnz
    subst hsk'
    have hskv : sk'.length = 32 := hsk sk' rfl
    rcases e with _ | ev
    · show xorAssign s sk' ≠ s
      rw [xorAssign_eq s sk' (by omega)]
      intro hcontra
      exact hnz ((zipWith_xor_eq_left s sk' (by omega)).mp hcontra)
    · have hev : ev.length = 32 := he ev rfl
      show xorAssign (xorAssign s sk') ev ≠ xorAssign s ev
      rw [xorAssign_eq s sk' (by omega),
        xorAssign_eq _ ev (by rw [zipWith_xor_length_32 s sk' hs hskv, hev]),
        xorAssign_eq s ev (by omega)]
      intro hcontra
      have hcancel := zipWith_xor_right_cancel _ s ev
        (by rw [zipWith_xor_length_32 s sk' hs hskv, hev]) (by omega) hcontra
      exact hnz ((zipWith_xor_eq_left s sk' (by omega)).mp hcancel)
  · intro e' he' hnz
    subst he'
    have hev : e'.length = 32 := he e' rfl
    rcases sk with _ | skv
    · show xorAssign s e' ≠ s
      rw [xorAssign_eq s e' (by omega)]
      intro hcontra
      exact hnz ((zipWith_xor_eq_left s e' (by omega)).mp hcontra)
    · have hskv : skv.length = 32 := hsk skv rfl
      show xorAssign (xorAssign s skv) e' ≠ xorAssign s skv
      rw [xorAssign_eq s skv (by omega),
        xorAssign_eq _ e' (by rw [zipWith_xor_length_32 s skv hs hskv, hev])]
      intro hcontra
      exact hnz ((zipWith_xor_eq_left _ e'
        (by rw [zipWith_xor_length_32 s skv hs hskv, hev])).mp hcontra)

/-- Witness for C1 at a concrete seed, secret key and extra entropy. -/
theorem claim_C1_nonce_seed_xor_witness :
    effectiveSeed (List.replicate 32 5) (some (List.replicate 32 9)) none
      = specEffectiveSeed (List.replicate 32 5) (some (List.replicate 32 9)) none
    ∧ effectiveSeed (List.replicate 32 5) (some (List.replicate 32 9)) none
      ≠ effectiveSeed (List.replicate 32 5) none none := by
  have h := claim_C1_nonce_seed_xor (List.replicate 32 5)
    (some (List.replicate 32 9)) none (by decide)
    (by intro b hb; simp at hb; subst hb; decide) (by intro b hb; simp at hb)
  exact ⟨h.1, h.2.1 (List.replicate 32 9) rfl (by decide)⟩

end Musig2

namespace Musig2

/-- C2: whenever a plain-EC or x-only tweak of a `KeyAggCache` succeeds
returning the public key `K`, the cache's `agg_pk` afterwards is the x-only
form of `K`; sequential plain tweaks compose additively, and sequential
x-only tweaks compose additively modulo the x-only normalization step
(stated here under the proviso that the intermediate aggregate is already
even-`y` normalized). -/
theorem claim_C2_tweak_consistency :
    (∀ (c c' : KeyAggCache) (t K : Point),
        KeyAggCache.pubkey_ec_tweak_add c t = (Except.ok K, c') →
        KeyAggCache.agg_pk c' = xOnly K)
    ∧ (∀ (c c' : KeyAggCache) (t K : Point),
        KeyAggCache.pubkey_xonly_tweak_add c t = (Except.ok K, c') →
        KeyAggCache.agg_pk c' = xOnly K)
    ∧ (∀ (c c1 c2 : KeyAggCache) (t1 t2 K1 K2 : Point),
        KeyAggCache.pubkey_ec_tweak_add c t1 = (Except.ok K1, c1) →
        KeyAggCache.pubkey_ec_tweak_add c1 t2 = (Except.ok K2, c2) →
        KeyAggCache.pubkey_ec_tweak_add c (t1 + t2) = (Except.ok K2, c2))
    ∧ (∀ (c c1 c2 : KeyAggCache) (t1 t2 K1 K2 : Point),
        KeyAggCache.pubkey_xonly_tweak_add c t1 = (Except.ok K1, c1) →
        xOnly c1.q = c1.q →
        KeyAggCache.pubkey_xonly_tweak_add c1 t2 = (Except.ok K2, c2) →
        KeyAggCache.pubkey_xonly_tweak_add c (t1 + t2) = (Except.ok K2, c2)) := by
  refine ⟨?_, ?_, ?_, ?_⟩
  · intro c c' t K h
    rw [KeyAggCache.pubkey_ec_tweak_add] at h
    by_cases h0 : c.q + t = 0
    · rw [if_pos h0] at h
      simp at h
    · rw [if_neg h0] at h
      simp only [Prod.mk.injEq, Except.ok.injEq] at h
      obtain ⟨rfl, rfl⟩ := h
      rfl
  · intro c c' t K h
    rw [KeyAggCache.pubkey_xonly_tweak_add] at h
    by_cases h0 : xOnly c.q + t = 0
    · rw [if_pos h0] at h
      simp at h
    · rw [if_neg h0] at h
      simp only [Prod.mk.injEq, Except.ok.injEq] at h
      obtain ⟨rfl, rfl⟩ := h
      rfl
  · intro c c1 c2 t1 t2 K1 K2 h1 h2
    rw [KeyAggCache.pubkey_ec_tweak_add] at h1 h2 ⊢
    by_cases h01 : c.q + t1 = 0
    · rw [if_pos h01] at h1
      simp at h1
    rw [if_neg h01] at h1
    simp only [Prod.mk.injEq, Except.ok.injEq] at h1
    obtain ⟨rfl, rfl⟩ := h1
    simp only at h2
    by_cases h02 : c.q + t1 + t2 = 0
    · rw [if_pos h02] at h2
      simp at h2
    rw [if_neg h02] at h2
    simp only [Prod.mk.injEq, Except.ok.injEq] at h2
    obtain ⟨rfl, rfl⟩ := h2
    rw [← add_assoc, if_neg h02]
  · intro c c1 c2 t1 t2 K1 K2 h1 hnorm h2
    rw [KeyAggCache.pubkey_xonly_tweak_add] at h1 h2 ⊢
    by_cases h01 : xOnly c.q + t1 = 0
    · rw [if_pos h01] at h1
      simp at h1
    rw [if_neg h01] at h1
    simp only [Prod.mk.injEq, Except.ok.injEq] at h1
    obtain ⟨rfl, rfl⟩ := h1
    simp only at h2 hnorm
    rw [hnorm] at h2
    by_cases h02 : xOnly c.q + t1 + t2 = 0
    · rw [if_pos h02] at h2
      simp at h2
    rw [if_neg h02] at h2
    simp only [Prod.mk.injEq, Except.ok.injEq] at h2
    obtain ⟨rfl, rfl⟩ := h2
    rw [← add_assoc, if_neg h02]

/-- Witness for C2 at a concrete cache and concrete tweaks. -/
theorem claim_C2_tweak_consistency_witness :
    KeyAggCache.agg_pk ⟨3, xOnly 3⟩ = xOnly 3
    ∧ KeyAggCache.pubkey_ec_tweak_add ⟨1, xOnly 1⟩ (1 + 1) = (Except.ok 3, ⟨3, xOnly 3⟩)
    ∧ KeyAggCache.pubkey_xonly_tweak_add ⟨1, xOnly 1⟩ (1 + 1) = (Except.ok 3, ⟨3, xOnly 3⟩) := by
  refine ⟨?_, ?_, ?_⟩
  · exact claim_C2_tweak_consistency.1 ⟨2, xOnly 2⟩ ⟨3, xOnly 3⟩ 1 3 (by decide)
  · exact claim_C2_tweak_consistency.2.2.1 ⟨1, xOnly 1⟩ ⟨2, xOnly 2⟩ ⟨3, xOnly 3⟩
      1 1 2 3 (by decide) (by decide)
  · exact claim_C2_tweak_consistency.2.2.2 ⟨1, xOnly 1⟩ ⟨2, xOnly 2⟩ ⟨3, xOnly 3⟩
      1 1 2 3 (by decide) (by decide) (by decide)

/-- C10: when a plain-EC or x-only tweak fails with `InvalidTweakErr`, the
cached aggregate x-only public key returned by `agg_pk` is exactly what it
was before the call. -/
theorem claim_C10_tweak_atomic_on_error :
    (∀ (c c' : KeyAggCache) (t : Point) (e : InvalidTweakErr),
        KeyAggCache.pubkey_ec_tweak_add c t = (Except.error e, c') →
        KeyAggCache.agg_pk c' = KeyAggCache.agg_pk c)
    ∧ (∀ (c c' : KeyAggCache) (t : Point) (e : InvalidTweakErr),
        KeyAggCache.pubkey_xonly_tweak_add c t = (Except.error e, c') →
        KeyAggCache.agg_pk c' = KeyAggCache.agg_pk c) := by
  constructor
  · intro c c' t e h
    rw [KeyAggCache.pubkey_ec_tweak_add] at h
    by_cases h0 : c.q + t = 0
    · rw [if_pos h0] at h
      simp only [Prod.mk.injEq] at h
      rw [← h.2]
    · rw [if_neg h0] at h
      simp at h
  · intro c c' t e h
    rw [KeyAggCache.pubkey_xonly_tweak_add] at h
    by_cases h0 : xOnly c.q + t = 0
    · rw [if_pos h0] at h
      simp only [Prod.mk.injEq] at h
      rw [← h.2]
    · rw [if_neg h0] at h
      simp at h

/-- Witness for C10 at a concrete cache and the cancelling tweak. -/
theorem claim_C10_tweak_atomic_on_error_witness :
    KeyAggCache.agg_pk ⟨1, xOnly 1⟩ = KeyAggCache.agg_pk ⟨1, xOnly 1⟩
    ∧ KeyAggCache.agg_pk ⟨2, xOnly 2⟩ = KeyAggCache.agg_pk ⟨2, xOnly 2⟩ := by
  constructor
  · exact claim_C10_tweak_atomic_on_error.1 ⟨1, xOnly 1⟩ ⟨1, xOnly 1⟩ (-1) ⟨⟩
      (by decide)
  · exact claim_C10_tweak_atomic_on_error.2 ⟨2, xOnly 2⟩ ⟨2, xOnly 2⟩ (-2) ⟨⟩
      (by decide)

end Musig2

namespace Musig2

/-- C3: for every non-empty list of public nonces, `AggregatedNonce::new`
does not fail, and whenever the component-wise sum at either level is the
point at infinity the aggregation substitutes the group generator for that
component. -/
theorem claim_C3_infinity_substitution (l : List PublicNonce) (hl : l ≠ []) :
    ∃ an : AggregatedNonce, AggregatedNonce.new l = some an
      ∧ ((l.map PublicNonce.r1).sum = 0 → an.r1 = generator)
      ∧ ((l.map PublicNonce.r2).sum = 0 → an.r2 = generator) := by
  match l with
  | [] => exact absurd rfl hl
  | a :: t =>
    refine ⟨⟨if (List.map PublicNonce.r1 (a :: t)).sum = 0 then generator
        else (List.map PublicNonce.r1 (a :: t)).sum,
      if (List.map PublicNonce.r2 (a :: t)).sum = 0 then generator
        else (List.map PublicNonce.r2 (a :: t)).sum⟩, ?_, ?_, ?_⟩
    · rfl
    · intro h
      simp only [h, if_pos]
    · intro h
      simp only [h, if_pos]

/-- Witness for C3 on a list whose first components cancel to infinity. -/
theorem claim_C3_infinity_substitution_witness :
    ∃ an : AggregatedNonce,
      AggregatedNonce.new [⟨1, 2⟩, ⟨-1, 3⟩] = some an
      ∧ (([(⟨1, 2⟩ : PublicNonce), ⟨-1, 3⟩].map PublicNonce.r1).sum = 0 → an.r1 = generator)
      ∧ (([(⟨1, 2⟩ : PublicNonce), ⟨-1, 3⟩].map PublicNonce.r2).sum = 0 → an.r2 = generator) :=
  claim_C3_infinity_substitution [⟨1, 2⟩, ⟨-1, 3⟩] (by simp)

/-- C4: nonce aggregation and partial-signature aggregation are invariant
under permutation of their input lists. -/
theorem claim_C4_aggregation_order_invariant :
    (∀ l₁ l₂ : List PublicNonce, l₁.Perm l₂ →
        AggregatedNonce.new l₁ = AggregatedNonce.new l₂)
    ∧ (∀ (s : Session) (p₁ p₂ : List PartialSignature), p₁.Perm p₂ →
        Session.partial_sig_agg s p₁ = Session.partial_sig_agg s p₂) := by
  constructor
  · intro l₁ l₂ h
    by_cases h1 : l₁ = []
    · subst h1
      rw [h.symm.eq_nil]
    · have h2 : l₂ ≠ [] := fun e => h1 ((e ▸ h).eq_nil)
      rw [AggregatedNonce.new, AggregatedNonce.new,
        if_neg (by simp [List.isEmpty_iff, h1]),
        if_neg (by simp [List.isEmpty_iff, h2]),
        (List.Perm.map PublicNonce.r1 h).sum_eq,
        (List.Perm.map PublicNonce.r2 h).sum_eq]
  · intro s p₁ p₂ h
    by_cases h1 : p₁ = []
    · subst h1
      rw [h.symm.eq_nil]
    · have h2 : p₂ ≠ [] := fun e => h1 ((e ▸ h).eq_nil)
      rw [Session.partial_sig_agg, Session.partial_sig_agg,
        if_neg (by simp [List.isEmpty_iff, h1]),
        if_neg (by simp [List.isEmpty_iff, h2]),
        h.sum_eq]

/-- Witness for C4 on concrete two-element swaps. -/
theorem claim_C4_aggregation_order_invariant_witness :
    AggregatedNonce.new [⟨1, 2⟩, ⟨3, 4⟩] = AggregatedNonce.new [⟨3, 4⟩, ⟨1, 2⟩]
    ∧ Session.partial_sig_agg ⟨5⟩ [1, 2] = Session.partial_sig_agg ⟨5⟩ [2, 1] :=
  ⟨claim_C4_aggregation_order_invariant.1 _ _
      (List.Perm.swap (⟨3, 4⟩ : PublicNonce) (⟨1, 2⟩ : PublicNonce) []),
    claim_C4_aggregation_order_invariant.2 ⟨5⟩ _ _ (List.Perm.swap 2 1 [])⟩

/-- C7: each of the three aggregation operations aborts (models the panic as
`none`) exactly on the empty input list, and returns normally on every
non-empty list. -/
theorem claim_C7_empty_aggregation_fatal :
    (∀ ks : List Point, KeyAggCache.new ks = none ↔ ks = [])
    ∧ (∀ ns : List PublicNonce, AggregatedNonce.new ns = none ↔ ns = [])
    ∧ (∀ (s : Session) (ps : List PartialSignature),
        Session.partial_sig_agg s ps = none ↔ ps = []) := by
  refine ⟨?_, ?_, ?_⟩
  · intro ks
    cases ks with
    | nil => simp [KeyAggCache.new]
    | cons a t => simp [KeyAggCache.new]
  · intro ns
    cases ns with
    | nil => simp [AggregatedNonce.new]
    | cons a t => simp [AggregatedNonce.new]
  · intro s ps
    cases ps with
    | nil => simp [Session.partial_sig_agg]
    | cons a t => simp [Session.partial_sig_agg]

end Musig2

namespace Musig2

/-- C5: key aggregation is order-sensitive; witnessed by a concrete pair of
distinct keys for which the four aggregates `[A,B]`, `[B,A]`, `[A,A]`,
`[A,A,B]` named by the spec are pairwise different (matching the spec's "in
general" qualification, which is a genericity statement rather than a
universal one). -/
theorem claim_C5_keyagg_order_sensitive :
    ∃ A B : Point, A ≠ B
      ∧ Option.map KeyAggCache.agg_pk (KeyAggCache.new [A, B])
          ≠ Option.map KeyAggCache.agg_pk (KeyAggCache.new [B, A])
      ∧ Option.map KeyAggCache.agg_pk (KeyAggCache.new [A, B])
          ≠ Option.map KeyAggCache.agg_pk (KeyAggCache.new [A, A])
      ∧ Option.map KeyAggCache.agg_pk (KeyAggCache.new [A, B])
          ≠ Option.map KeyAggCache.agg_pk (KeyAggCache.new [A, A, B])
      ∧ Option.map KeyAggCache.agg_pk (KeyAggCache.new [B, A])
          ≠ Option.map KeyAggCache.agg_pk (KeyAggCache.new [A, A])
      ∧ Option.map KeyAggCache.agg_pk (KeyAggCache.new [B, A])
          ≠ Option.map KeyAggCache.agg_pk (KeyAggCache.new [A, A, B]) :=
  ⟨2, 3, by decide, by decide, by decide, by decide, by decide, by decide⟩

end Musig2

namespace Musig2

/-- C8: the `SessionSecretRand` constructor aborts (modelled as `none`)
exactly on the all-zero byte string, and `new_nonce_pair` aborts exactly
under the same condition on the raw seed — so for every non-zero seed both
return normally, and an all-zero seed is never turned into a silently-wrong
nonce. -/
theorem claim_C8_zero_seed_fatal :
    (∀ inner : List ℕ,
        assume_unique_per_nonce_gen inner = none ↔ ∀ x ∈ inner, x = 0)
    ∧ (∀ (secrand : List ℕ) (cache : Option KeyAggCache) (sk : Option (List ℕ))
        (pk : Point) (msg extra : Option (List ℕ)),
        new_nonce_pair secrand cache sk pk msg extra = none ↔ ∀ x ∈ secrand, x = 0) := by
  constructor
  · intro inner
    rw [assume_unique_per_nonce_gen]
    constructor
    · intro h
      by_cases hc : inner.foldl (fun accum x => accum ||| x) 0 = 0
      · exact ((foldl_or_eq_zero inner 0).mp hc).2
      · rw [if_neg hc] at h
        simp at h
    · intro h
      rw [if_pos ((foldl_or_eq_zero inner 0).mpr ⟨rfl, h⟩)]
  · intro secrand cache sk pk msg extra
    rw [new_nonce_pair]
    by_cases hc : ∀ x ∈ secrand, x = 0
    · rw [if_pos (by simpa [List.all_eq_true] using hc)]
      exact ⟨fun _ => hc, fun _ => rfl⟩
    · rw [if_neg (by simpa [List.all_eq_true] using hc)]
      constructor
      · intro h
        simp at h
      · intro h
        exact absurd h hc

end Musig2

namespace Musig2

theorem pubNonce_serialize_length (x : PublicNonce) :
    (PublicNonce.serialize x).length = 66 := by
  rw [PublicNonce.serialize, List.length_append, encodePoint_length,
    encodePoint_length]

theorem pubNonce_serialize_lt (x : PublicNonce) :
    ∀ b ∈ PublicNonce.serialize x, b < 256 := by
  intro b hb
  rw [PublicNonce.serialize] at hb
  rcases List.mem_append.mp hb with h | h
  · exact encodePoint_bytes_lt x.r1 b h
  · exact encodePoint_bytes_lt x.r2 b h

theorem pubNonce_roundtrip (x : PublicNonce) (h1 : x.r1 ≠ 0) (h2 : x.r2 ≠ 0) :
    PublicNonce.from_byte_array (PublicNonce.serialize x) = Except.ok x := by
  rw [PublicNonce.from_byte_array, if_pos (pubNonce_serialize_length x),
    PublicNonce.serialize,
    List.take_left' (encodePoint_length x.r1),
    List.drop_left' (encodePoint_length x.r1),
    decodePoint_encodePoint h1, decodePoint_encodePoint h2]

theorem aggNonce_serialize_length (y : AggregatedNonce) :
    (AggregatedNonce.serialize y).length = 66 := by
  rw [AggregatedNonce.serialize, List.length_append, encodePointExt_length,
    encodePointExt_length]

theorem aggNonce_serialize_lt (y : AggregatedNonce) :
    ∀ b ∈ AggregatedNonce.serialize y, b < 256 := by
  intro b hb
  rw [AggregatedNonce.serialize] at hb
  rcases List.mem_append.mp hb with h | h
  · exact encodePointExt_bytes_lt y.r1 b h
  · exact encodePointExt_bytes_lt y.r2 b h

theorem aggNonce_roundtrip (y : AggregatedNonce) :
    AggregatedNonce.from_byte_array (AggregatedNonce.serialize y) = Except.ok y := by
  rw [AggregatedNonce.from_byte_array, if_pos (aggNonce_serialize_length y),
    AggregatedNonce.serialize,
    List.take_left' (encodePointExt_length y.r1),
    List.drop_left' (encodePointExt_length y.r1),
    decodePointExt_encodePointExt, decodePointExt_encodePointExt]

theorem partialSignature_serialize_length (z : PartialSignature) :
    (partialSignatureSerialize z).length = 32 := by
  rw [partialSignatureSerialize]
  exact beBytes_length 32 _

theorem partialSignature_serialize_lt (z : PartialSignature) :
    ∀ b ∈ partialSignatureSerialize z, b < 256 := by
  intro b hb
  rw [partialSignatureSerialize] at hb
  exact beBytes_lt 32 _ b hb

theorem partialSignature_roundtrip (z : PartialSignature) :
    partialSignatureFromByteArray (partialSignatureSerialize z) = Except.ok z := by
  have hval : fromBytesBE (beBytes 32 z.val) = z.val :=
    fromBytesBE_beBytes 32 _ (lt_trans (ZMod.val_lt z) curveOrder_lt_pow32)
  rw [partialSignatureFromByteArray, partialSignatureSerialize]
  rw [if_pos ⟨beBytes_length 32 _, by rw [hval]; exact ZMod.val_lt z⟩]
  rw [hval]
  rw [ZMod.natCast_rightInverse z]

end Musig2

namespace Musig2

/-- C6: for every valid value of the wire types `PublicNonce`,
`AggregatedNonce` and `PartialSignature`, parsing the serialization gives
the value back, and parsing the `Display`/`LowerHex` rendering with
`from_str` gives the value back, the rendering being canonical lowercase
hex of exactly twice the serialized size. -/
theorem claim_C6_wire_roundtrip :
    (∀ x : PublicNonce, x.r1 ≠ 0 → x.r2 ≠ 0 →
        PublicNonce.from_byte_array (PublicNonce.serialize x) = Except.ok x
        ∧ PublicNonce.from_str (PublicNonce.displayHex x) = Except.ok x
        ∧ (PublicNonce.displayHex x).data.length = 132
        ∧ ∀ c ∈ (PublicNonce.displayHex x).data,
            ('0' ≤ c ∧ c ≤ '9') ∨ ('a' ≤ c ∧ c ≤ 'f'))
    ∧ (∀ y : AggregatedNonce,
        AggregatedNonce.from_byte_array (AggregatedNonce.serialize y) = Except.ok y
        ∧ AggregatedNonce.from_str (AggregatedNonce.displayHex y) = Except.ok y
        ∧ (AggregatedNonce.displayHex y).data.length = 132
        ∧ ∀ c ∈ (AggregatedNonce.displayHex y).data,
            ('0' ≤ c ∧ c ≤ '9') ∨ ('a' ≤ c ∧ c ≤ 'f'))
    ∧ (∀ z : PartialSignature,
        partialSignatureFromByteArray (partialSignatureSerialize z) = Except.ok z
        ∧ partialSignatureFromStr (partialSignatureDisplayHex z) = Except.ok z
        ∧ (partialSignatureDisplayHex z).data.length = 64
        ∧ ∀ c ∈ (partialSignatureDisplayHex z).data,
            ('0' ≤ c ∧ c ≤ '9') ∨ ('a' ≤ c ∧ c ≤ 'f')) := by
  refine ⟨?_, ?_, ?_⟩
  · intro x h1 h2
    have hdata : (PublicNonce.displayHex x).data = toHexChars (PublicNonce.serialize x) := rfl
    refine ⟨pubNonce_roundtrip x h1 h2, ?_, ?_, ?_⟩
    · rw [PublicNonce.from_str, hdata,
        fromHexChars_toHexChars _ (pubNonce_serialize_lt x)]
      show (if (PublicNonce.serialize x).length = 66
          then PublicNonce.from_byte_array (PublicNonce.serialize x)
          else Except.error ParseError.MalformedArg) = Except.ok x
      rw [if_pos (pubNonce_serialize_length x)]
      exact pubNonce_roundtrip x h1 h2
    · rw [hdata, toHexChars_length, pubNonce_serialize_length]
    · rw [hdata]
      exact toHexChars_mem_lower _ (pubNonce_serialize_lt x)
  · intro y
    have hdata : (AggregatedNonce.displayHex y).data = toHexChars (AggregatedNonce.serialize y) := rfl
    refine ⟨aggNonce_roundtrip y, ?_, ?_, ?_⟩
    · rw [AggregatedNonce.from_str, hdata,
        fromHexChars_toHexChars _ (aggNonce_serialize_lt y)]
      show (if (AggregatedNonce.serialize y).length = 66
          then AggregatedNonce.from_byte_array (AggregatedNonce.serialize y)
          else Except.error ParseError.MalformedArg) = Except.ok y
      rw [if_pos (aggNonce_serialize_length y)]
      exact aggNonce_roundtrip y
    · rw [hdata, toHexChars_length, aggNonce_serialize_length]
    · rw [hdata]
      exact toHexChars_mem_lower _ (aggNonce_serialize_lt y)
  · intro z
    have hdata : (partialSignatureDisplayHex z).data
        = toHexChars (partialSignatureSerialize z) := by
      rw [partialSignatureDisplayHex]
    refine ⟨partialSignature_roundtrip z, ?_, ?_, ?_⟩
    · rw [partialSignatureFromStr, hdata,
        fromHexChars_toHexChars _ (partialSignature_serialize_lt z)]
      show (if (partialSignatureSerialize z).length = 32
          then partialSignatureFromByteArray (partialSignatureSerialize z)
          else Except.error ParseError.MalformedArg) = Except.ok z
      rw [if_pos (partialSignature_serialize_length z)]
      exact partialSignature_roundtrip z
    · rw [hdata, toHexChars_length, partialSignature_serialize_length]
    · rw [hdata]
      exact toHexChars_mem_lower _ (partialSignature_serialize_lt z)

/-- Witness for C6 at concrete wire values. -/
theorem claim_C6_wire_roundtrip_witness :
    PublicNonce.from_str (PublicNonce.displayHex ⟨1, 2⟩) = Except.ok ⟨1, 2⟩
    ∧ AggregatedNonce.from_str (AggregatedNonce.displayHex ⟨0, 3⟩) = Except.ok ⟨0, 3⟩
    ∧ partialSignatureFromStr (partialSignatureDisplayHex 7) = Except.ok 7 :=
  ⟨(claim_C6_wire_roundtrip.1 ⟨1, 2⟩ (by decide) (by decide)).2.1,
    (claim_C6_wire_roundtrip.2.1 ⟨0, 3⟩).2.1,
    (claim_C6_wire_roundtrip.2.2 7).2.1⟩

end Musig2

namespace Musig2

/-- C9: hex parsing of the three wire types rejects wrong-length or malformed
input with the recoverable `ParseError::MalformedArg` (the parsers are total
functions, so no input is fatal), and byte-level parsing rejects exactly the
byte strings that do not decode to valid curve points or an in-range
scalar. -/
theorem claim_C9_parse_total_recoverable :
    (∀ s : String, s.data.length ≠ 132 →
        PublicNonce.from_str s = Except.error ParseError.MalformedArg)
    ∧ (∀ s : String, s.data.length ≠ 132 →
        AggregatedNonce.from_str s = Except.error ParseError.MalformedArg)
    ∧ (∀ s : String, s.data.length ≠ 64 →
        partialSignatureFromStr s = Except.error ParseError.MalformedArg)
    ∧ (∀ (s : String) (c : Char), c ∈ s.data → hexDigitVal c = none →
        PublicNonce.from_str s = Except.error ParseError.MalformedArg
        ∧ AggregatedNonce.from_str s = Except.error ParseError.MalformedArg
        ∧ partialSignatureFromStr s = Except.error ParseError.MalformedArg)
    ∧ (∀ b : List ℕ,
        PublicNonce.from_byte_array b = Except.error ParseError.MalformedArg ↔
          ¬(b.length = 66 ∧ (∃ p1, decodePoint (b.take 33) = some p1)
            ∧ (∃ p2, decodePoint (b.drop 33) = some p2)))
    ∧ (∀ b : List ℕ,
        partialSignatureFromByteArray b = Except.error ParseError.MalformedArg ↔
          ¬(b.length = 32 ∧ fromBytesBE b < curveOrder)) := by
  refine ⟨?_, ?_, ?_, ?_, ?_, ?_⟩
  · intro s hs
    rw [PublicNonce.from_str]
    rcases h : fromHexChars s.data with _ | bytes
    · rfl
    · have hlen := fromHexChars_length _ _ h
      show (if bytes.length = 66 then PublicNonce.from_byte_array bytes
          else Except.error ParseError.MalformedArg) = Except.error ParseError.MalformedArg
      rw [if_neg (by omega)]
  · intro s hs
    rw [AggregatedNonce.from_str]
    rcases h : fromHexChars s.data with _ | bytes
    · rfl
    · have hlen := fromHexChars_length _ _ h
      show (if bytes.length = 66 then AggregatedNonce.from_byte_array bytes
          else Except.error ParseError.MalformedArg) = Except.error ParseError.MalformedArg
      rw [if_neg (by omega)]
  · intro s hs
    rw [partialSignatureFromStr]
    rcases h : fromHexChars s.data with _ | bytes
    · rfl
    · have hlen := fromHexChars_length _ _ h
      show (if bytes.length = 32 then partialSignatureFromByteArray bytes
          else Except.error ParseError.MalformedArg) = Except.error ParseError.MalformedArg
      rw [if_neg (by omega)]
  · intro s c hc hbad
    have hnone := fromHexChars_none_of_bad s.data c hc hbad
    refine ⟨?_, ?_, ?_⟩
    · rw [PublicNonce.from_str, hnone]
    · rw [AggregatedNonce.from_str, hnone]
    · rw [partialSignatureFromStr, hnone]
  · intro b
    rw [PublicNonce.from_byte_array]
    by_cases hl : b.length = 66
    · rw [if_pos hl]
      rcases h1 : decodePoint (b.take 33) with _ | p1
        <;> rcases h2 : decodePoint (b.drop 33) with _ | p2
      · simp [h1, h2, hl]
      · simp [h1, h2, hl]
      · simp [h1, h2, hl]
      · simp [h1, h2, hl]
    · rw [if_neg hl]
      simp [hl]
  · intro b
    rw [partialSignatureFromByteArray]
    by_cases hc : b.length = 32 ∧ fromBytesBE b < curveOrder
    · rw [if_pos hc]
      simp [hc]
    · rw [if_neg hc]
      simp [hc]

/-- Witness for C9 on concrete malformed inputs and a valid byte string. -/
theorem claim_C9_parse_total_recoverable_witness :
    PublicNonce.from_str (String.mk [Char.ofNat 97, Char.ofNat 98])
      = Except.error ParseError.MalformedArg
    ∧ AggregatedNonce.from_str (String.mk [Char.ofNat 97])
      = Except.error ParseError.MalformedArg
    ∧ partialSignatureFromStr (String.mk [Char.ofNat 97])
      = Except.error ParseError.MalformedArg
    ∧ PublicNonce.from_str (String.mk (List.replicate 132 (Char.ofNat 122)))
      = Except.error ParseError.MalformedArg
    ∧ (partialSignatureFromByteArray (List.replicate 31 0)
        = Except.error ParseError.MalformedArg ↔
          ¬((List.replicate 31 (0 : ℕ)).length = 32
            ∧ fromBytesBE (List.replicate 31 0) < curveOrder)) := by
  refine ⟨?_, ?_, ?_, ?_, ?_⟩
  · exact claim_C9_parse_total_recoverable.1 _ (by decide)
  · exact claim_C9_parse_total_recoverable.2.1 _ (by decide)
  · exact claim_C9_parse_total_recoverable.2.2.1 _ (by decide)
  · exact (claim_C9_parse_total_recoverable.2.2.2.1 _ (Char.ofNat 122)
      (by simp) (by decide)).1
  · exact claim_C9_parse_total_recoverable.2.2.2.2.2 _

end Musig2
